import Mathlib

/-!
Verification of the history completion provider
(`src/client/datascience/history/completionProvider.ts`).

The module has two parts:

* `HistoryDocument` — a virtual text document assembled from appended code
  fragments.  It keeps the full text (`contents`, a `\r`-free string modelled
  as `List Char`), a line index (`lines`) rebuilt after every mutation, a
  monotone `version` counter, the moving append cursor `editOffset`
  (`_editOffset` in the source) and the one-shot `firstEdit` flag.
  Mutations are `addLines` (append a fragment) and `editLines`
  (apply the first range edit of a Monaco change batch).

* `CompletionProvider` — a dispatcher that tracks cancellation sources per
  request id and normalizes backend completion results.

All definitions below are direct translations of the TypeScript source;
strings become `List Char`, JavaScript numbers become `Nat` (the source
never produces negative values on the paths modelled here).
-/

namespace HistoryCompletion

/-- A (line, character) position, 0-based, as in `vscode.Position`. -/
structure Pos where
  line : Nat
  character : Nat
deriving DecidableEq, Repr

/-- The serializable range produced by `createSerializableRange`. -/
structure SerializableRange where
  start : Pos
  endPos : Pos
deriving DecidableEq, Repr

/-- `TextDocumentContentChangeEvent` as produced by `addLines`/`editLines`. -/
structure ChangeRecord where
  range : SerializableRange
  rangeOffset : Nat
  rangeLength : Nat
  text : List Char
deriving DecidableEq, Repr

/-- A line record (`HistoryLine` in the source): the line's text without the
line break, its 0-based index, and its start offset in the document. -/
structure HistoryLine where
  contents : List Char
  line : Nat
  offset : Nat
deriving DecidableEq, Repr

/-- Monaco's 1-based range shape (`IModelContentChange.range`). -/
structure MonacoRange where
  startLineNumber : Nat
  startColumn : Nat
  endLineNumber : Nat
  endColumn : Nat
deriving DecidableEq, Repr

/-- Monaco's `IModelContentChange`: a 1-based range, the length of the text
being replaced, and the replacement text. -/
structure ModelContentChange where
  range : MonacoRange
  rangeLength : Nat
  text : List Char
deriving DecidableEq, Repr

/-- The mutable state of `HistoryDocument`. -/
structure HistoryDocument where
  version : Nat
  lines : List HistoryLine
  contents : List Char
  editOffset : Nat
  firstEdit : Bool
deriving DecidableEq, Repr

/-- The freshly constructed document: empty contents, no lines, version 0,
edit offset 0, first-edit flag set. -/
def initialDocument : HistoryDocument :=
  { version := 0, lines := [], contents := [], editOffset := 0, firstEdit := true }

/-- `splitLines` with `{trim: false, removeEmptyEntries: false}`: split the
text at every line break, keeping empty entries.  The contents never contain
`\r` (all inserted text is normalized first), so splitting at `\n` matches
the source's `/\r?\n/` split.  Like JavaScript `split`, the result is never
empty: splitting the empty string gives one empty line. -/
def splitLines : List Char → List (List Char)
  | [] => [[]]
  | c :: rest =>
    if c = '\n' then [] :: splitLines rest
    else
      match splitLines rest with
      | [] => [[c]]
      | l :: ls => (c :: l) :: ls

/-- Joining lines back with a single `\n` between consecutive lines. -/
def joinLines : List (List Char) → List Char
  | [] => []
  | [l] => l
  | l :: ls => l ++ '\n' :: joinLines ls

/-- The `split.map` loop inside `createLines`: each line record gets the next
index, and its offset is the previous line's offset plus the previous line's
text length plus 1 (`prevLine.offset + prevLine.rangeIncludingLineBreak.end.character`);
the first line of the batch starts at `off`. -/
def createLinesFrom : List (List Char) → Nat → Nat → List HistoryLine
  | [], _, _ => []
  | s :: rest, index, off =>
    { contents := s, line := index, offset := off }
      :: createLinesFrom rest (index + 1) (off + s.length + 1)

/-- `createLines`: rebuild the whole line index from the contents. -/
def createLines (contents : List Char) : List HistoryLine :=
  createLinesFrom (splitLines contents) 0 0

/-- The `while` loop of `computePosition`: starting from line 0, advance
while the next line exists and its offset is still `≤ offset`; the result is
the length of the maximal such run in the tail of the line list. -/
def computeLine (lines : List HistoryLine) (offset : Nat) : Nat :=
  ((lines.drop 1).takeWhile (fun l => decide (l.offset ≤ offset))).length

/-- `computePosition`: offset → (line, character).  The character is
`offset - lines[line].offset` when the line index is in range, `0` otherwise. -/
def computePosition (d : HistoryDocument) (offset : Nat) : Pos :=
  let line := computeLine d.lines offset
  if h : line < d.lines.length then
    { line := line, character := offset - (d.lines.get ⟨line, h⟩).offset }
  else
    { line := line, character := 0 }

/-- `convertToOffset`: position → offset.  Positions on a line past the end
of the line index clamp to the full contents length. -/
def convertToOffset (d : HistoryDocument) (pos : Pos) : Nat :=
  if h : pos.line < d.lines.length then
    (d.lines.get ⟨pos.line, h⟩).offset + pos.character
  else
    d.contents.length

/-- `getText`: without a range the whole contents; with a range the
`substr(startOffset, endOffset - startOffset)` slice (JavaScript `substr`
with a non-positive length yields the empty string, matching `Nat`
subtraction). -/
def getText (d : HistoryDocument) (range : Option SerializableRange) : List Char :=
  match range with
  | none => d.contents
  | some r =>
    let startOffset := convertToOffset d r.start
    let endOffset := convertToOffset d r.endPos
    (d.contents.drop startOffset).take (endOffset - startOffset)

/-- `addLines`: append a code fragment.  The version is bumped, the text is
`\r`-stripped, a `\n` separator is prefixed when the document is non-empty,
the splice point is `editOffset` (or `editOffset - 1` once `firstEdit` has
been cleared by an edit), the line index is rebuilt, `editOffset` advances by
the inserted length, and one insertion change record is returned.  Note the
source never clears `firstEdit` here. -/
def addLines (d : HistoryDocument) (code : List Char) :
    HistoryDocument × List ChangeRecord :=
  let normalized := code.filter (fun c => c ≠ '\r')
  let newCode := if d.contents.length ≠ 0 then '\n' :: normalized else normalized
  let fromOffset := if d.firstEdit then d.editOffset else d.editOffset - 1
  let before := d.contents.take fromOffset
  let after := d.contents.drop fromOffset
  let fromPosition := computePosition d fromOffset
  let newContents := before ++ newCode ++ after
  ({ d with
      version := d.version + 1
      contents := newContents
      lines := createLines newContents
      editOffset := d.editOffset + newCode.length },
   [{ range := { start := fromPosition, endPos := fromPosition }
      rangeOffset := fromOffset
      rangeLength := 0
      text := newCode }])

/-- `editLines`: apply the first change of a Monaco change batch.  The
version is bumped unconditionally, before the batch is inspected.  On the
first edit ever, `\n` + text is appended at the end, `editOffset` advances by
exactly 1 and the flag is cleared.  Otherwise the 1-based Monaco range is
shifted by the line of `editOffset` and converted to offsets, the contents
are spliced, and the line index rebuilt; `editOffset` does not move. -/
def editLines (d : HistoryDocument) (editorChanges : List ModelContentChange) :
    HistoryDocument × List ChangeRecord :=
  let d1 := { d with version := d.version + 1 }
  match editorChanges with
  | [] => (d1, [])
  | change :: _ =>
    let normalized := change.text.filter (fun c => c ≠ '\r')
    if d1.firstEdit then
      let fromOffset := d1.editOffset
      let newText := '\n' :: normalized
      let newContents := d1.contents ++ newText
      let d2 := { d1 with
        firstEdit := false
        editOffset := d1.editOffset + 1
        contents := newContents
        lines := createLines newContents }
      (d2,
       [{ range := { start := computePosition d2 fromOffset
                     endPos := computePosition d2 (fromOffset + newText.length) }
          rangeOffset := fromOffset
          rangeLength := change.rangeLength
          text := newText }])
    else
      let editPos := computePosition d1 d1.editOffset
      let fromPos : Pos :=
        { line := editPos.line + change.range.startLineNumber - 1
          character := change.range.startColumn - 1 }
      let toPos : Pos :=
        { line := editPos.line + change.range.endLineNumber - 1
          character := change.range.endColumn - 1 }
      let fromOffset := convertToOffset d1 fromPos
      let toOffset := convertToOffset d1 toPos
      let newContents :=
        d1.contents.take fromOffset ++ normalized ++ d1.contents.drop toOffset
      let d2 := { d1 with contents := newContents, lines := createLines newContents }
      (d2,
       [{ range := { start := fromPos, endPos := toPos }
          rangeOffset := fromOffset
          rangeLength := toOffset - fromOffset
          text := normalized }])

/-- `convertToDocumentPosition`: shift a 1-based Monaco cursor into the
document by the line of the current edit offset. -/
def convertToDocumentPosition (d : HistoryDocument) (line ch : Nat) : Pos :=
  let editLine := computePosition d d.editOffset
  { line := line - 1 + editLine.line, character := ch - 1 }

/-- Document states reachable from the fresh document by any sequence of
appends and edits. -/
inductive Reachable : HistoryDocument → Prop
  | init : Reachable initialDocument
  | add (code : List Char) {d : HistoryDocument} :
      Reachable d → Reachable (addLines d code).1
  | edit (changes : List ModelContentChange) {d : HistoryDocument} :
      Reachable d → Reachable (editLines d changes).1

/-- An opaque completion item: the dispatcher round-trips items unchanged, so
one abstract field suffices. -/
structure CompletionItem where
  label : Nat
deriving DecidableEq, Repr

/-- What the backend's completion call may return: a wrapper object carrying
`isIncomplete` (a `CompletionList`), a bare item array, or `null`.  The
constructor distinguishes whether the `isIncomplete` field is present,
mirroring the `hasOwnProperty('isIncomplete')` discriminator. -/
inductive BackendResult where
  | completionList (isIncomplete : Bool) (items : List CompletionItem)
  | itemArray (items : List CompletionItem)
  | nullResult
deriving DecidableEq, Repr

/-- Monaco's completion list shape `{suggestions, incomplete}` (the spec's
`{items, isIncomplete}` output shape). -/
structure MonacoCompletionList where
  suggestions : List CompletionItem
  incomplete : Bool
deriving DecidableEq, Repr

/-- `convertToMonacoCompletionItem`: an identity cast. -/
def convertToMonacoCompletionItem (item : CompletionItem) : CompletionItem :=
  item

/-- `convertToMonacoCompletionList`: `null` becomes the empty incomplete
list; a result owning `isIncomplete` is treated as a wrapper; anything else
as a bare array (incomplete `false`).  Items are mapped through the identity
conversion. -/
def convertToMonacoCompletionList (result : BackendResult) : MonacoCompletionList :=
  match result with
  | .completionList isIncomplete items =>
    { suggestions := items.map convertToMonacoCompletionItem, incomplete := isIncomplete }
  | .itemArray items =>
    { suggestions := items.map convertToMonacoCompletionItem, incomplete := false }
  | .nullResult => { suggestions := [], incomplete := true }

/-- The observable state of a `CancellationTokenSource` held by the
dispatcher: still active, or cancelled and disposed by
`handleCompletionItemsCancel`. -/
inductive SourceState where
  | active
  | cancelledDisposed
deriving DecidableEq, Repr

/-- The dispatcher's `cancellationSources` map, keyed by request id. -/
def SourcesMap : Type := String → Option SourceState

/-- The dispatcher starts with no pending entries. -/
def emptySources : SourcesMap := fun _ => none

/-- JavaScript object assignment `map[id] = value`. -/
def setSource (m : SourcesMap) (id : String) (v : SourceState) : SourcesMap :=
  fun k => if k = id then some v else m k

/-- `handleCompletionItemsCancel`: look the id up; if a source is there,
cancel and dispose it (the entry itself is never deleted); otherwise do
nothing. -/
def handleCompletionItemsCancel (m : SourcesMap) (id : String) : SourcesMap :=
  match m id with
  | some _ => setSource m id .cancelledDisposed
  | none => m

/-- How the completion promise for a request settles: the backend replied
with a result; the language client or document was missing (the handler
resolves with the empty incomplete list); or the promise rejected — any
failure, including cancellation of the request's token. -/
inductive PromiseOutcome where
  | resolved (result : BackendResult)
  | noBackend
  | rejected
deriving DecidableEq, Repr

/-- The outbound `ProvideCompletionItemsResponse` message payload. -/
structure ResponseMessage where
  id : String
  list : MonacoCompletionList
deriving DecidableEq, Repr

/-- `handleCompletionItemsRequest`: register a fresh cancellation source
under the id, then — once the completion promise settles — post exactly one
response carrying the id: the normalized backend result on resolution, the
empty incomplete list when no backend/document was available, and the empty
incomplete list from the `catch` handler on any rejection. -/
def handleCompletionItemsRequest (m : SourcesMap) (id : String)
    (outcome : PromiseOutcome) : SourcesMap × List ResponseMessage :=
  let m1 := setSource m id .active
  match outcome with
  | .resolved result => (m1, [{ id := id, list := convertToMonacoCompletionList result }])
  | .noBackend => (m1, [{ id := id, list := { suggestions := [], incomplete := true } }])
  | .rejected => (m1, [{ id := id, list := { suggestions := [], incomplete := true } }])

/-- The texts of the line records, in order. -/
def lineTexts (lines : List HistoryLine) : List (List Char) :=
  lines.map (fun l => l.contents)

/-- Boolean form of the line-start invariant: each line's start offset plus
its text length plus 1 (for the separator) is the next line's start offset. -/
def linesChainOk : List HistoryLine → Bool
  | [] => true
  | [_] => true
  | a :: b :: rest =>
    decide (a.offset + a.contents.length + 1 = b.offset) && linesChainOk (b :: rest)

/-- Boolean form of "line 0 starts at offset 0" (vacuously true when the
line index is empty). -/
def firstLineStartsAtZero : List HistoryLine → Bool
  | [] => true
  | l :: _ => decide (l.offset = 0)

/-! ### Helper lemmas -/

theorem takeWhile_length_le {α : Type} (p : α → Bool) :
    ∀ l : List α, (l.takeWhile p).length ≤ l.length := by
  intro l
  induction l with
  | nil => simp
  | cons a t ih =>
    by_cases h : p a
    · rw [List.takeWhile_cons_of_pos h]
      simpa using ih
    · rw [List.takeWhile_cons_of_neg (by simp [h])]
      simp

theorem takeWhile_get_sat {α : Type} (p : α → Bool) :
    ∀ (l : List α) (i : Nat), i < (l.takeWhile p).length →
      ∃ h2 : i < l.length, p (l.get ⟨i, h2⟩) = true := by
  intro l
  induction l with
  | nil => intro i h; simp [List.takeWhile] at h
  | cons a t ih =>
    intro i h
    by_cases hp : p a
    · rw [List.takeWhile_cons_of_pos hp] at h
      cases i with
      | zero => exact ⟨Nat.succ_pos _, hp⟩
      | succ j =>
        obtain ⟨h2, hsat⟩ := ih j (by simpa using h)
        exact ⟨Nat.succ_lt_succ h2, hsat⟩
    · rw [List.takeWhile_cons_of_neg (by simp [hp])] at h
      simp at h

theorem splitLines_ne_nil (l : List Char) : splitLines l ≠ [] := by
  cases l with
  | nil => simp [splitLines]
  | cons c rest =>
    simp only [splitLines]
    split
    · simp
    · split <;> simp

theorem joinLines_cons_cons (c : Char) (l : List Char) (ls : List (List Char)) :
    joinLines ((c :: l) :: ls) = c :: joinLines (l :: ls) := by
  cases ls with
  | nil => rfl
  | cons m ms => rfl

theorem splitLines_cons_newline (rest : List Char) :
    splitLines ('\n' :: rest) = [] :: splitLines rest := by
  simp [splitLines]

theorem splitLines_cons_other (c : Char) (rest : List Char) (h : c ≠ '\n') :
    splitLines (c :: rest) =
      match splitLines rest with
      | [] => [[c]]
      | l :: ls => (c :: l) :: ls := by
  simp [splitLines, h]

theorem joinLines_splitLines (l : List Char) : joinLines (splitLines l) = l := by
  induction l with
  | nil => rfl
  | cons c rest ih =>
    by_cases h : c = '\n'
    · subst h
      rw [splitLines_cons_newline]
      cases hs : splitLines rest with
      | nil => exact absurd hs (splitLines_ne_nil rest)
      | cons a as =>
        show '\n' :: joinLines (a :: as) = '\n' :: rest
        rw [← hs, ih]
    · rw [splitLines_cons_other c rest h]
      cases hs : splitLines rest with
      | nil => exact absurd hs (splitLines_ne_nil rest)
      | cons a as =>
        show joinLines ((c :: a) :: as) = c :: rest
        rw [joinLines_cons_cons, ← hs, ih]

theorem createLinesFrom_map (ss : List (List Char)) :
    ∀ index off, lineTexts (createLinesFrom ss index off) = ss := by
  induction ss with
  | nil => intro index off; rfl
  | cons s rest ih =>
    intro index off
    simp only [createLinesFrom, lineTexts, List.map_cons]
    exact congrArg (s :: ·) (ih (index + 1) (off + s.length + 1))

theorem linesChainOk_createLinesFrom (ss : List (List Char)) :
    ∀ index off, linesChainOk (createLinesFrom ss index off) = true := by
  induction ss with
  | nil => intro index off; rfl
  | cons s rest ih =>
    intro index off
    cases rest with
    | nil => rfl
    | cons s2 rest2 =>
      show linesChainOk
          ({ contents := s, line := index, offset := off } ::
            { contents := s2, line := index + 1, offset := off + s.length + 1 } ::
            createLinesFrom rest2 (index + 1 + 1) (off + s.length + 1 + s2.length + 1))
          = true
      simp only [linesChainOk]
      refine (Bool.and_eq_true _ _).mpr ⟨by simp, ?_⟩
      exact ih (index + 1) (off + s.length + 1)

theorem linesChainOk_createLines (c : List Char) :
    linesChainOk (createLines c) = true :=
  linesChainOk_createLinesFrom (splitLines c) 0 0

theorem firstLineStartsAtZero_createLines (c : List Char) :
    firstLineStartsAtZero (createLines c) = true := by
  unfold createLines
  cases hs : splitLines c with
  | nil => exact absurd hs (splitLines_ne_nil c)
  | cons s rest => simp [createLinesFrom, firstLineStartsAtZero]

theorem joinLines_createLines (c : List Char) :
    joinLines (lineTexts (createLines c)) = c := by
  rw [createLines, createLinesFrom_map]
  exact joinLines_splitLines c

theorem createLines_ne_nil (c : List Char) : createLines c ≠ [] := by
  unfold createLines
  cases hs : splitLines c with
  | nil => exact absurd hs (splitLines_ne_nil c)
  | cons s rest => simp [createLinesFrom]

theorem get_zero_offset_of_firstLine (L : List HistoryLine)
    (hz : firstLineStartsAtZero L = true) (h : 0 < L.length) :
    (L.get ⟨0, h⟩).offset = 0 := by
  cases L with
  | nil => simp at h
  | cons a t => simpa [firstLineStartsAtZero] using hz

/-- Every reachable document either is still in its pristine state (no lines,
empty contents) or has its line index equal to `createLines` of its contents:
every mutation path rebuilds the index in full. -/
theorem reachable_lines_eq (d : HistoryDocument) (h : Reachable d) :
    (d.lines = [] ∧ d.contents = []) ∨ d.lines = createLines d.contents := by
  induction h with
  | init => exact Or.inl ⟨rfl, rfl⟩
  | @add code d hr ih => exact Or.inr rfl
  | @edit changes d hr ih =>
    cases changes with
    | nil => simpa [editLines] using ih
    | cons c cs =>
      by_cases hf : d.firstEdit
      · exact Or.inr (by simp [editLines, hf])
      · exact Or.inr (by simp [editLines, hf])

/-- The offset → position → offset roundtrip for a document whose line index
is the full rebuild of its contents. -/
theorem convert_compute_of_lines (d : HistoryDocument)
    (hl : d.lines = createLines d.contents) (o : Nat) :
    convertToOffset d (computePosition d o) = o := by
  have hne : d.lines ≠ [] := by rw [hl]; exact createLines_ne_nil _
  have hlen : 0 < d.lines.length := List.length_pos.mpr hne
  have hk_lt : computeLine d.lines o < d.lines.length := by
    have h1 : computeLine d.lines o ≤ (d.lines.drop 1).length :=
      takeWhile_length_le _ _
    rw [List.length_drop] at h1
    omega
  have hoff : (d.lines.get ⟨computeLine d.lines o, hk_lt⟩).offset ≤ o := by
    rcases Nat.eq_zero_or_pos (computeLine d.lines o) with hk0 | hkpos
    · have h0 := get_zero_offset_of_firstLine d.lines
        (by rw [hl]; exact firstLineStartsAtZero_createLines _) hlen
      have efin : (⟨computeLine d.lines o, hk_lt⟩ : Fin d.lines.length) = ⟨0, hlen⟩ :=
        Fin.ext hk0
      rw [efin, h0]
      exact Nat.zero_le o
    · obtain ⟨j, hj⟩ : ∃ j, computeLine d.lines o = j + 1 :=
        ⟨computeLine d.lines o - 1, by omega⟩
      have hjlt : j < ((d.lines.drop 1).takeWhile
          (fun l => decide (l.offset ≤ o))).length := by
        have : computeLine d.lines o =
            ((d.lines.drop 1).takeWhile (fun l => decide (l.offset ≤ o))).length := rfl
        omega
      obtain ⟨h2, hsat⟩ := takeWhile_get_sat _ (d.lines.drop 1) j hjlt
      have e : (d.lines.drop 1).get ⟨j, h2⟩
          = d.lines.get ⟨computeLine d.lines o, hk_lt⟩ := by
        simp only [List.get_eq_getElem, List.getElem_drop]
        congr 1
        omega
      rw [e] at hsat
      exact of_decide_eq_true hsat
  have hcp : computePosition d o =
      { line := computeLine d.lines o
        character := o - (d.lines.get ⟨computeLine d.lines o, hk_lt⟩).offset } := by
    unfold computePosition
    rw [dif_pos hk_lt]
  rw [hcp]
  unfold convertToOffset
  rw [dif_pos hk_lt]
  exact Nat.add_sub_cancel' hoff

/-! ### Claims -/

/-- C1 counterexample: on an empty document, `editLines` does not behave like
`addLines` for the same text "ab": the append yields contents "ab" and
advances the edit offset by 2, while the first range edit yields "\nab"
(a separator is prefixed) and advances the edit offset by only 1. -/
theorem first_mutation_edit_vs_append_counterexample :
    (addLines initialDocument ['a', 'b']).1.contents = ['a', 'b'] ∧
    (addLines initialDocument ['a', 'b']).1.editOffset = 2 ∧
    (editLines initialDocument
      [{ range := { startLineNumber := 1, startColumn := 1,
                    endLineNumber := 1, endColumn := 1 },
         rangeLength := 0, text := ['a', 'b'] }]).1.contents = ['\n', 'a', 'b'] ∧
    (editLines initialDocument
      [{ range := { startLineNumber := 1, startColumn := 1,
                    endLineNumber := 1, endColumn := 1 },
         rangeLength := 0, text := ['a', 'b'] }]).1.editOffset = 1 ∧
    (addLines initialDocument ['a', 'b']).1.contents ≠
      (editLines initialDocument
        [{ range := { startLineNumber := 1, startColumn := 1,
                      endLineNumber := 1, endColumn := 1 },
           rangeLength := 0, text := ['a', 'b'] }]).1.contents := by
  decide

/-- C1 amended: on an empty document the first `addLines` inserts the
normalized text with no separator and advances the edit offset by the full
text length, whereas the first `editLines` with a nonempty batch appends a
`\n` separator followed by the normalized text and advances the edit offset
by exactly 1 (consuming the first-edit flag); when both are applied with the
same text, the resulting contents always differ. -/
theorem first_mutation_edit_vs_append (code : List Char)
    (change : ModelContentChange) :
    (addLines initialDocument code).1.contents = code.filter (fun c => c ≠ '\r') ∧
    (addLines initialDocument code).1.editOffset =
      (code.filter (fun c => c ≠ '\r')).length ∧
    (editLines initialDocument [change]).1.contents =
      '\n' :: change.text.filter (fun c => c ≠ '\r') ∧
    (editLines initialDocument [change]).1.editOffset = 1 ∧
    (editLines initialDocument [change]).1.firstEdit = false ∧
    (code = change.text →
      (addLines initialDocument code).1.contents ≠
        (editLines initialDocument [change]).1.contents) := by
  refine ⟨?_, ?_, ?_, rfl, rfl, ?_⟩
  · simp [addLines, initialDocument]
  · simp [addLines, initialDocument]
  · simp [editLines, initialDocument]
  · intro hsame h
    have h1 : (addLines initialDocument code).1.contents =
        code.filter (fun c => c ≠ '\r') := by simp [addLines, initialDocument]
    have h2 : (editLines initialDocument [change]).1.contents =
        '\n' :: change.text.filter (fun c => c ≠ '\r') := by
      simp [editLines, initialDocument]
    rw [h1, h2, hsame] at h
    have := congrArg List.length h
    simp at this

/-- Witness: the amended first-mutation contrast evaluated at the text "ab". -/
theorem first_mutation_edit_vs_append_witness :
    (addLines initialDocument ['a', 'b']).1.contents ≠
      (editLines initialDocument
        [{ range := { startLineNumber := 1, startColumn := 1,
                      endLineNumber := 1, endColumn := 1 },
           rangeLength := 0, text := ['a', 'b'] }]).1.contents :=
  (first_mutation_edit_vs_append ['a', 'b']
    { range := { startLineNumber := 1, startColumn := 1,
                 endLineNumber := 1, endColumn := 1 },
      rangeLength := 0, text := ['a', 'b'] }).2.2.2.2.2 (by decide)

/-- C2: for every document state reachable by appends and edits and every
valid offset `o` (`o ≤ contents.length`), converting `o` to a (line,
character) position with `computePosition` and converting that position back
with `convertToOffset` yields `o` again.  (The public `offsetAt` stub throws;
these two private conversions are the ones the document actually uses.) -/
theorem offset_position_roundtrip (d : HistoryDocument) (h : Reachable d)
    (o : Nat) (ho : o ≤ d.contents.length) :
    convertToOffset d (computePosition d o) = o := by
  rcases reachable_lines_eq d h with ⟨hl, hc⟩ | hl
  · have hco : d.contents.length = 0 := by rw [hc]; rfl
    have ho0 : o = 0 := by omega
    subst ho0
    simp [computePosition, convertToOffset, computeLine, hl, hc]
  · exact convert_compute_of_lines d hl o

/-- Witness: the roundtrip law evaluated on the document obtained by
appending "a\nb", at offset 3. -/
theorem offset_position_roundtrip_witness :
    convertToOffset (addLines initialDocument ['a', '\n', 'b']).1
        (computePosition (addLines initialDocument ['a', '\n', 'b']).1 3) = 3 :=
  offset_position_roundtrip (addLines initialDocument ['a', '\n', 'b']).1
    (Reachable.add ['a', '\n', 'b'] Reachable.init) 3 (by decide)

/-- C3 counterexample: after the first successful append the one-shot flag is
still set — `addLines` never clears `_firstEdit`, so the first-mutation path
of `editLines` remains armed. -/
theorem firstEdit_survives_addLines :
    (addLines initialDocument ['a']).1.firstEdit = true := by
  decide

/-- C3 amended: the one-shot flag is consumed only by the first `editLines`
call with a nonempty change batch; `addLines` reads the flag but never
changes it, and once the flag is false it stays false forever. -/
theorem firstEdit_flag_consumption (d : HistoryDocument) (code : List Char)
    (changes : List ModelContentChange) :
    (addLines d code).1.firstEdit = d.firstEdit ∧
    (changes ≠ [] → (editLines d changes).1.firstEdit = false) ∧
    (d.firstEdit = false → (editLines d changes).1.firstEdit = false) := by
  refine ⟨rfl, ?_, ?_⟩
  · intro hne
    cases changes with
    | nil => exact absurd rfl hne
    | cons c cs =>
      by_cases hf : d.firstEdit <;> simp [editLines, hf]
  · intro hf
    cases changes with
    | nil => simpa [editLines] using hf
    | cons c cs => simp [editLines, hf]

/-- Witness: a first nonempty `editLines` on the fresh document clears the
flag. -/
theorem firstEdit_flag_consumption_witness :
    (editLines initialDocument
      [{ range := { startLineNumber := 1, startColumn := 1,
                    endLineNumber := 1, endColumn := 1 },
         rangeLength := 0, text := ['a'] }]).1.firstEdit = false :=
  (firstEdit_flag_consumption initialDocument ['a']
    [{ range := { startLineNumber := 1, startColumn := 1,
                  endLineNumber := 1, endColumn := 1 },
       rangeLength := 0, text := ['a'] }]).2.1 (by decide)

/-- C4 counterexample: an `editLines` call with an empty change batch is a
no-op on the text but still increments the version: on the fresh document it
bumps the version from 0 to 1 while returning no change records and leaving
contents, lines, edit offset and flag untouched. -/
theorem version_bump_on_empty_edit :
    (editLines initialDocument []).1.version = 1 ∧
    (editLines initialDocument []).2 = [] ∧
    (editLines initialDocument []).1.contents = initialDocument.contents ∧
    (editLines initialDocument []).1.lines = initialDocument.lines := by
  decide

/-- C4 amended: `version` starts at 0 and increases by exactly 1 on every
`addLines` call and on every `editLines` call — including `editLines` calls
whose change batch is empty, which change nothing else but still bump the
version. -/
theorem version_increments_every_call (d : HistoryDocument) (code : List Char)
    (changes : List ModelContentChange) :
    initialDocument.version = 0 ∧
    (addLines d code).1.version = d.version + 1 ∧
    (editLines d changes).1.version = d.version + 1 := by
  refine ⟨rfl, rfl, ?_⟩
  cases changes with
  | nil => rfl
  | cons c cs =>
    by_cases hf : d.firstEdit <;> simp [editLines, hf]

/-- C5: after any sequence of appends and edits the line index is exactly the
line-break-delimited decomposition of the contents with consistent start
offsets: each line's start plus its text length plus 1 equals the next line's
start, the first line (when the index is nonempty) starts at offset 0, and
joining the line texts with line breaks reproduces the contents. -/
theorem line_index_invariant (d : HistoryDocument) (h : Reachable d) :
    linesChainOk d.lines = true ∧
    firstLineStartsAtZero d.lines = true ∧
    joinLines (lineTexts d.lines) = d.contents := by
  rcases reachable_lines_eq d h with ⟨hl, hc⟩ | hl
  · rw [hl, hc]
    exact ⟨rfl, rfl, rfl⟩
  · rw [hl]
    exact ⟨linesChainOk_createLines _, firstLineStartsAtZero_createLines _,
      joinLines_createLines _⟩

/-- Witness: the line invariant evaluated after two appends ("a" then "b"). -/
theorem line_index_invariant_witness :
    linesChainOk (addLines (addLines initialDocument ['a']).1 ['b']).1.lines = true ∧
    firstLineStartsAtZero
        (addLines (addLines initialDocument ['a']).1 ['b']).1.lines = true ∧
    joinLines (lineTexts (addLines (addLines initialDocument ['a']).1 ['b']).1.lines)
        = (addLines (addLines initialDocument ['a']).1 ['b']).1.contents :=
  line_index_invariant _ (Reachable.add ['b'] (Reachable.add ['a'] Reachable.init))

/-- C6: appending "b" to the document whose contents is "a" (produced by a
first append of "a") yields contents "a\nb" and exactly one change record:
a zero-length replacement (`rangeLength = 0`) at offset 1 — immediately after
"a" — whose inserted text is "\nb". -/
theorem subsequent_append_change_record :
    (addLines (addLines initialDocument ['a']).1 ['b']).1.contents
        = ['a', '\n', 'b'] ∧
    (addLines (addLines initialDocument ['a']).1 ['b']).2 =
      [{ range := { start := { line := 0, character := 1 }
                    endPos := { line := 0, character := 1 } }
         rangeOffset := 1
         rangeLength := 0
         text := ['\n', 'b'] }] := by
  decide

/-- C7 counterexample: cancelling a pending request does not remove its
entry: after registering request "1" and cancelling it, the cancellation
sources map still holds an entry for "1" (now cancelled and disposed). -/
theorem pending_entry_survives_cancel :
    (handleCompletionItemsCancel
        (handleCompletionItemsRequest emptySources "1" PromiseOutcome.rejected).1
        "1") "1" = some SourceState.cancelledDisposed := by
  rfl

/-- C7 amended: cancelling an id with no pending entry is a no-op, and
cancelling the same id a second time changes nothing; but pending entries are
never deleted — after a cancel the entry survives in the map, marked
cancelled and disposed.  A request whose promise is rejected (which is what
cancellation causes) resolves to the single empty incomplete response. -/
theorem cancellation_behavior (m : SourcesMap) (id : String)
    (outcome : PromiseOutcome) :
    (m id = none → handleCompletionItemsCancel m id = m) ∧
    handleCompletionItemsCancel (handleCompletionItemsCancel m id) id
        = handleCompletionItemsCancel m id ∧
    (handleCompletionItemsCancel
        (handleCompletionItemsRequest m id outcome).1 id) id
        = some SourceState.cancelledDisposed ∧
    (handleCompletionItemsRequest m id PromiseOutcome.rejected).2
        = [{ id := id, list := { suggestions := [], incomplete := true } }] := by
  refine ⟨?_, ?_, ?_, rfl⟩
  · intro hnone
    simp [handleCompletionItemsCancel, hnone]
  · cases hm : m id with
    | none => simp [handleCompletionItemsCancel, hm]
    | some s =>
      have h1 : handleCompletionItemsCancel m id = setSource m id .cancelledDisposed := by
        simp [handleCompletionItemsCancel, hm]
      have h2 : (setSource m id SourceState.cancelledDisposed) id
          = some SourceState.cancelledDisposed := by
        simp [setSource]
      rw [h1]
      simp only [handleCompletionItemsCancel, h2]
      funext k
      by_cases hk : k = id <;> simp [setSource, hk]
  · have hreq : (handleCompletionItemsRequest m id outcome).1
        = setSource m id .active := by
      cases outcome <;> rfl
    rw [hreq]
    have h2 : (setSource m id SourceState.active) id = some SourceState.active := by
      simp [setSource]
    simp only [handleCompletionItemsCancel, h2]
    simp [setSource]

/-- Witness: cancelling an unknown id on the empty map is a no-op, and a
registered-then-cancelled id still has a (cancelled, disposed) entry. -/
theorem cancellation_behavior_witness :
    handleCompletionItemsCancel emptySources "2" = emptySources ∧
    (handleCompletionItemsCancel
        (handleCompletionItemsRequest emptySources "2" PromiseOutcome.rejected).1
        "2") "2" = some SourceState.cancelledDisposed :=
  ⟨(cancellation_behavior emptySources "2" PromiseOutcome.rejected).1 rfl,
   (cancellation_behavior emptySources "2" PromiseOutcome.rejected).2.2.1⟩

/-- C8: for every inbound completion request the dispatcher emits exactly one
response message carrying the request id: the normalized backend result when
the promise resolves, and the empty incomplete list both when no
backend/document is available and when the promise rejects (which includes
cancellation) — the caller never sees a raw failure. -/
theorem completion_request_single_response (m : SourcesMap) (id : String)
    (result : BackendResult) :
    (handleCompletionItemsRequest m id (PromiseOutcome.resolved result)).2
        = [{ id := id, list := convertToMonacoCompletionList result }] ∧
    (handleCompletionItemsRequest m id PromiseOutcome.noBackend).2
        = [{ id := id, list := { suggestions := [], incomplete := true } }] ∧
    (handleCompletionItemsRequest m id PromiseOutcome.rejected).2
        = [{ id := id, list := { suggestions := [], incomplete := true } }] :=
  ⟨rfl, rfl, rfl⟩

/-- C9: result normalization — a bare item array normalizes to the items with
`isIncomplete = false`, a wrapper carrying the `isIncomplete` field (the
discriminator, a separate constructor here) normalizes to its items with its
own flag, and the item objects pass through unchanged. -/
theorem completion_result_normalization (items : List CompletionItem) (b : Bool) :
    convertToMonacoCompletionList (BackendResult.itemArray items)
        = { suggestions := items, incomplete := false } ∧
    convertToMonacoCompletionList (BackendResult.completionList b items)
        = { suggestions := items, incomplete := b } := by
  have hmap : ∀ xs : List CompletionItem,
      xs.map convertToMonacoCompletionItem = xs := by
    intro xs
    induction xs with
    | nil => rfl
    | cons x t ih => simp [convertToMonacoCompletionItem, ih]
  constructor <;> simp [convertToMonacoCompletionList, hmap]

/-- C10: `convertToOffset` never fails — a position whose line is at or past
the number of lines clamps to the full contents length — and `getText` of any
range is a contiguous substring of the contents. -/
theorem convertToOffset_clamps_getText_total (d : HistoryDocument) (pos : Pos)
    (r : SerializableRange) (hp : d.lines.length ≤ pos.line) :
    convertToOffset d pos = d.contents.length ∧
    getText d (some r) <:+: d.contents := by
  constructor
  · unfold convertToOffset
    rw [dif_neg (by omega)]
  · refine ⟨d.contents.take (convertToOffset d r.start),
      (d.contents.drop (convertToOffset d r.start)).drop
        (convertToOffset d r.endPos - convertToOffset d r.start), ?_⟩
    simp only [getText]
    rw [List.append_assoc, List.take_append_drop, List.take_append_drop]

/-- Witness: on the fresh document, a position on line 5 clamps to offset 0
and `getText` of the zero range is a substring of the contents. -/
theorem convertToOffset_clamps_getText_total_witness :
    convertToOffset initialDocument { line := 5, character := 0 }
        = initialDocument.contents.length ∧
    getText initialDocument
        (some { start := { line := 0, character := 0 }
                endPos := { line := 0, character := 0 } })
      <:+: initialDocument.contents :=
  convertToOffset_clamps_getText_total initialDocument
    { line := 5, character := 0 }
    { start := { line := 0, character := 0 }
      endPos := { line := 0, character := 0 } }
    (by decide)

end HistoryCompletion
